import Mathlib

/-!
Verification of the `bigview` large-file viewer.

The development shallowly embeds the core of the program:
`FileReader` (line index, line access, substring search) from
`src/file_reader.rs`, `TextUtils::split_line_into_spans` from
`src/text_utils.rs`, `Selection` from `src/selection.rs`, and the
relevant state transitions of `Viewer` from `src/viewer.rs`.
File bytes are `List Nat` (byte values), decoded text is `List Nat`
(Unicode scalar values), and styles are abstract `Nat` tags.
-/

namespace Bigview

/-- Offsets recorded by the indexing loop of `FileReader::new_with_progress`:
one entry `pos + 1` for every separator byte `0x0A` found at position `pos`,
scanning `bytes` whose first element sits at absolute position `pos₀`. -/
def sepOffsets : List Nat → Nat → List Nat
  | [], _ => []
  | b :: rest, pos =>
    if b = 10 then (pos + 1) :: sepOffsets rest (pos + 1)
    else sepOffsets rest (pos + 1)

/-- The line-start offset table `lines` of `FileReader`: starts with the
implicit offset `0`, followed by one offset per separator byte. -/
def lineStarts (bytes : List Nat) : List Nat :=
  0 :: sepOffsets bytes 0

/-- Embeds `FileReader::line_count`. -/
def lineCount (bytes : List Nat) : Nat :=
  (lineStarts bytes).length

/-- UTF-8 validation and decoding into Unicode scalar values, as performed
by `std::str::from_utf8` (and `str::chars`): continuation bytes must lie in
`0x80..0xBF`, overlong encodings, surrogate code points and code points
above `0x10FFFF` are rejected. -/
def decodeUtf8 : List Nat → Option (List Nat)
  | [] => some []
  | b :: rest =>
    if b < 0x80 then
      (decodeUtf8 rest).map fun cs => b :: cs
    else if b < 0xC2 then none
    else if b < 0xE0 then
      match rest with
      | c1 :: rest2 =>
        if 0x80 ≤ c1 ∧ c1 < 0xC0 then
          (decodeUtf8 rest2).map fun cs => ((b - 0xC0) * 0x40 + (c1 - 0x80)) :: cs
        else none
      | [] => none
    else if b < 0xF0 then
      match rest with
      | c1 :: c2 :: rest2 =>
        if (if b = 0xE0 then 0xA0 else 0x80) ≤ c1 ∧ c1 < (if b = 0xED then 0xA0 else 0xC0) ∧
            0x80 ≤ c2 ∧ c2 < 0xC0 then
          (decodeUtf8 rest2).map fun cs =>
            ((b - 0xE0) * 0x1000 + (c1 - 0x80) * 0x40 + (c2 - 0x80)) :: cs
        else none
      | _ => none
    else if b < 0xF5 then
      match rest with
      | c1 :: c2 :: c3 :: rest2 =>
        if (if b = 0xF0 then 0x90 else 0x80) ≤ c1 ∧ c1 < (if b = 0xF4 then 0x90 else 0xC0) ∧
            0x80 ≤ c2 ∧ c2 < 0xC0 ∧ 0x80 ≤ c3 ∧ c3 < 0xC0 then
          (decodeUtf8 rest2).map fun cs =>
            ((b - 0xF0) * 0x40000 + (c1 - 0x80) * 0x1000 + (c2 - 0x80) * 0x40 + (c3 - 0x80)) :: cs
        else none
      | _ => none
    else none

/-- The `start` bound computed by `FileReader::get_line`: the recorded
offset of line `n`. -/
def lineStartOf (bytes : List Nat) (n : Nat) : Nat :=
  (lineStarts bytes).getD n 0

/-- The `end` bound computed by `FileReader::get_line`: one before the next
recorded offset (excluding the separator), or end of file for the last
line.  `Nat` subtraction is the `saturating_sub` of the source. -/
def lineEndOf (bytes : List Nat) (n : Nat) : Nat :=
  if n + 1 < (lineStarts bytes).length then (lineStarts bytes).getD (n + 1) 0 - 1
  else bytes.length

/-- The byte slice `&mmap[start..end]` of line `n`: the bytes between the
recorded offset of line `n` and the offset of line `n + 1` (or end of file
for the last line), separator excluded. -/
def lineSlice (bytes : List Nat) (n : Nat) : List Nat :=
  (bytes.drop (lineStartOf bytes n)).take (lineEndOf bytes n - lineStartOf bytes n)

/-- Embeds `FileReader::get_line`. -/
def getLine (bytes : List Nat) (n : Nat) : Option (List Nat) :=
  if n ≥ (lineStarts bytes).length then none
  else if lineStartOf bytes n > lineEndOf bytes n ∨ lineStartOf bytes n ≥ bytes.length then
    none
  else decodeUtf8 (lineSlice bytes n)

/-- Sequence-level `str::starts_with`: does `hay` begin with `needle`? -/
def startsWithSeq : List Nat → List Nat → Bool
  | _, [] => true
  | [], _ :: _ => false
  | a :: hs, b :: ns => a == b && startsWithSeq hs ns

/-- Embeds `str::contains` with a literal (case-sensitive) pattern:
`strContains hay needle` holds iff `needle` occurs contiguously in `hay`. -/
def strContains : List Nat → List Nat → Bool
  | hay, needle =>
    startsWithSeq hay needle ||
      match hay with
      | [] => false
      | _ :: t => strContains t needle

/-- The match list produced by `FileReader::search_with_progress`: every
line number in order whose (decodable) text contains `needle`; lines that
fail to decode are skipped. -/
def searchMatches (bytes needle : List Nat) : List Nat :=
  (List.range (lineCount bytes)).filter fun n =>
    match getLine bytes n with
    | some l => strContains l needle
    | none => false

/-- Embeds `FileReader::search_with_progress` instrumented with the number of loop
iterations performed.  The scan loop of the source has no cancellation
checkpoint: its body runs once for every recorded line. -/
def searchWithCount (bytes needle : List Nat) : List Nat × Nat :=
  (List.range (lineCount bytes)).foldl
    (fun acc n =>
      match getLine bytes n with
      | some l => (if strContains l needle then acc.1 ++ [n] else acc.1, acc.2 + 1)
      | none => (acc.1, acc.2 + 1))
    ([], 0)

/-- A highlight range `(start, end, style)` of
`TextUtils::split_line_into_spans`, in character units, with the style an
abstract tag. -/
abbrev HRange := Nat × Nat × Nat

/-- The comparator of `sorted_ranges.sort_by(|a, b| a.0.cmp(&b.0))`:
order by start position. -/
def rangeLe (a b : HRange) : Prop := a.1 ≤ b.1

instance : DecidableRel rangeLe := fun a b => inferInstanceAs (Decidable (a.1 ≤ b.1))

instance : IsTotal HRange rangeLe := ⟨fun a b => Nat.le_total a.1 b.1⟩

instance : IsTrans HRange rangeLe := ⟨fun _ _ _ h1 h2 => Nat.le_trans h1 h2⟩

/-- One sweep event `(position, is_start, style)`. -/
abbrev HEvent := Nat × Bool × Nat

/-- The comparator of the event sort: by position, breaking ties with end
events (`false`) before start events (`true`). -/
def eventLe (a b : HEvent) : Prop :=
  a.1 < b.1 ∨ (a.1 = b.1 ∧ (a.2.1 = true → b.2.1 = true))

instance : DecidableRel eventLe :=
  fun a b => inferInstanceAs (Decidable (_ ∨ _))

instance : IsTotal HEvent eventLe := by
  constructor
  intro a b
  unfold eventLe
  rcases Nat.lt_trichotomy a.1 b.1 with h | h | h
  · exact Or.inl (Or.inl h)
  · cases ha : a.2.1 <;> cases hb : b.2.1 <;> simp [h, ha, hb]
  · exact Or.inr (Or.inl h)

instance : IsTrans HEvent eventLe := by
  constructor
  intro a b c hab hbc
  unfold eventLe at *
  rcases hab with h1 | ⟨e1, i1⟩ <;> rcases hbc with h2 | ⟨e2, i2⟩
  · exact Or.inl (Nat.lt_trans h1 h2)
  · exact Or.inl (e2 ▸ h1)
  · exact Or.inl (e1 ▸ h2)
  · exact Or.inr ⟨e1.trans e2, fun h => i2 (i1 h)⟩

/-- The clamped, non-empty ranges (`style_map` of the source), in the order
the loop pushes them: input ranges stably sorted by start, clamped to
`[0, charLen]`, degenerate ranges discarded. -/
def styleMap (charLen : Nat) (ranges : List HRange) : List HRange :=
  (List.insertionSort rangeLe ranges).filterMap fun r =>
    if min r.1 charLen < min r.2.1 charLen then
      some (min r.1 charLen, min r.2.1 charLen, r.2.2)
    else none

/-- The event list of the sweep: a start and an end event per `style_map`
entry, stably sorted with `eventLe`. -/
def sweepEvents (charLen : Nat) (ranges : List HRange) : List HEvent :=
  List.insertionSort eventLe
    ((styleMap charLen ranges).flatMap fun r => [(r.1, true, r.2.2), (r.2.1, false, r.2.2)])

/-- One iteration of the sweep loop: the state is
`(active style stack, last position, emitted segments)`; a segment styled
with the top of the stack is emitted whenever the position advances, then
the stack is pushed or filtered (`retain`). -/
def sweepStep (st : List Nat × Nat × List (Nat × Nat × Option Nat)) (ev : HEvent) :
    List Nat × Nat × List (Nat × Nat × Option Nat) :=
  ((if ev.2.1 then st.1 ++ [ev.2.2] else st.1.filter fun s => s ≠ ev.2.2),
   ev.1,
   (if st.2.1 < ev.1 then st.2.2 ++ [(st.2.1, ev.1, st.1.getLast?)] else st.2.2))

/-- The segment list `(start, end, style)` produced by the sweep of
`TextUtils::split_line_into_spans`, the final unstyled segment included. -/
def sweepSegments (charLen : Nat) (ranges : List HRange) : List (Nat × Nat × Option Nat) :=
  ((sweepEvents charLen ranges).foldl sweepStep ([], 0, [])).2.2 ++
    (if ((sweepEvents charLen ranges).foldl sweepStep ([], 0, [])).2.1 < charLen then
      [(((sweepEvents charLen ranges).foldl sweepStep ([], 0, [])).2.1, charLen, none)]
    else [])

/-- The span-conversion step of `TextUtils::split_line_into_spans`: a
segment `(start, end, style)` with `start < end` becomes the span holding
`chars[start..end]` and its style; empty segments are dropped. -/
def segToSpan (line : List Nat) (seg : Nat × Nat × Option Nat) :
    Option (List Nat × Option Nat) :=
  if seg.1 < seg.2.1 then
    some ((line.drop seg.1).take (seg.2.1 - seg.1), seg.2.2)
  else none

/-- Embeds `TextUtils::split_line_into_spans`: the produced spans `(text, style)`,
with `none` for an unstyled (`Span::raw`) stretch. -/
def splitLineIntoSpans (line : List Nat) (ranges : List HRange) :
    List (List Nat × Option Nat) :=
  if ranges = [] then [(line, none)]
  else (sweepSegments line.length ranges).filterMap (segToSpan line)

/-- The style painted on each character position, read off a span list in
order. -/
def charStyles (spans : List (List Nat × Option Nat)) : List (Option Nat) :=
  spans.flatMap fun sp => sp.1.map fun _ => sp.2

/-- The chaining predicate for segment lists: starting from position `a`,
each segment begins where the previous one ended, is non-empty, and the
last one ends at `b`. -/
def segsLink : Nat → List (Nat × Nat × Option Nat) → Nat → Prop
  | a, [], b => a = b
  | a, seg :: rest, b => seg.1 = a ∧ a < seg.2.1 ∧ segsLink seg.2.1 rest b

/-- Embeds `Selection` of `src/selection.rs`: anchor (`start_*`) and cursor
(`end_*`) of a mouse drag, in (line, column) character coordinates. -/
structure Selection where
  start_line : Nat
  start_col : Nat
  end_line : Nat
  end_col : Nat
deriving DecidableEq

/-- Embeds `Selection::new`. -/
def Selection.new (line col : Nat) : Selection :=
  ⟨line, col, line, col⟩

/-- Embeds `Selection::update_end`. -/
def Selection.update_end (s : Selection) (line col : Nat) : Selection :=
  { s with end_line := line, end_col := col }

/-- Embeds `Selection::normalize`. -/
def Selection.normalize (s : Selection) : Nat × Nat × Nat × Nat :=
  if s.start_line < s.end_line ∨ (s.start_line = s.end_line ∧ s.start_col ≤ s.end_col) then
    (s.start_line, s.start_col, s.end_line, s.end_col)
  else
    (s.end_line, s.end_col, s.start_line, s.start_col)

/-- The selection obtained by dragging over the same two points in the
opposite direction: anchor and cursor exchanged. -/
def flipSel (s : Selection) : Selection :=
  ⟨s.end_line, s.end_col, s.start_line, s.start_col⟩

/-- Embeds `ContextMenu` of `src/viewer.rs` (items are character lists). -/
structure ContextMenu where
  x : Nat
  y : Nat
  items : List (List Nat)
deriving DecidableEq

/-- The state of `Viewer` (`src/viewer.rs`).  The `FileReader` is embedded
as its mapped bytes (`file`); the search `TextArea` as its single line of
text (`search_textarea`). -/
structure Viewer where
  file : List Nat
  current_line : Nat
  search_matches : List Nat
  current_match : Nat
  in_search_mode : Bool
  viewport_height : Nat
  selection : Option Selection
  selecting : Bool
  context_menu : Option ContextMenu
  progress_visible : Bool
  progress_value : Float
  progress_message : List Nat
  search_requested : Bool
  search_cancelled : Bool
  last_search_term : List Nat
  search_textarea : List Nat

/-- Embeds `Viewer::next_match`. -/
def nextMatch (v : Viewer) : Viewer :=
  if v.search_matches = [] then v
  else
    { v with
      current_match := (v.current_match + 1) % v.search_matches.length,
      current_line :=
        v.search_matches.getD ((v.current_match + 1) % v.search_matches.length) 0
          - v.viewport_height / 2 }

/-- Embeds `Viewer::prev_match`. -/
def prevMatch (v : Viewer) : Viewer :=
  if v.search_matches = [] then v
  else
    { v with
      current_match :=
        if v.current_match = 0 then v.search_matches.length - 1 else v.current_match - 1,
      current_line :=
        v.search_matches.getD
          (if v.current_match = 0 then v.search_matches.length - 1 else v.current_match - 1) 0
          - v.viewport_height / 2 }

/-- Embeds `Viewer::perform_search_with_progress` (the synchronous path, with no
progress callback attached): empty term clears the matches and returns;
otherwise the search runs, the first match is centered, and the progress
overlay ends hidden. -/
def performSearch (v : Viewer) : Viewer :=
  if v.search_textarea = [] then { v with search_matches := [] }
  else
    let ms := searchMatches v.file v.search_textarea
    if ms = [] then
      { v with
        last_search_term := v.search_textarea,
        search_matches := ms,
        current_match := 0,
        progress_visible := false,
        progress_value := 0.0,
        progress_message := [] }
    else
      { v with
        last_search_term := v.search_textarea,
        search_matches := ms,
        current_match := 0,
        current_line := ms.getD 0 0 - v.viewport_height / 2,
        progress_visible := false,
        progress_value := 0.0,
        progress_message := [] }

/-- The Esc branch of `Viewer::perform_search_with_ui_progress`: the
controller marks the search cancelled, re-enters search-entry mode with the
typed term retained, hides the progress overlay and returns — without
signalling or joining the worker thread. -/
def cancelSearch (v : Viewer) : Viewer :=
  { v with
    search_cancelled := true,
    in_search_mode := true,
    progress_visible := false,
    progress_value := 0.0,
    progress_message := [],
    search_requested := false }

/-- The bytes of the file `"foo\nbar\nfoofoo"` (lines `foo`, `bar`,
`foofoo`). -/
def fooFile : List Nat := [102, 111, 111, 10, 98, 97, 114, 10, 102, 111, 111, 102, 111, 111]

/-- The needle `"foo"`. -/
def fooNeedle : List Nat := [102, 111, 111]

/-- A 12-character line (`"aaaaaaaaaaaa"`). -/
def line12 : List Nat := List.replicate 12 97

/-- A freshly constructed viewer over the empty file: the initial state of
`Viewer::new` with `DEFAULT_VIEWPORT_HEIGHT = 20`. -/
def emptyViewer : Viewer :=
  { file := [], current_line := 0, search_matches := [], current_match := 0,
    in_search_mode := false, viewport_height := 20, selection := none,
    selecting := false, context_menu := none, progress_visible := false,
    progress_value := 0.0, progress_message := [], search_requested := false,
    search_cancelled := false, last_search_term := [], search_textarea := [] }

/-- A viewer over a ten-line file (nine separator bytes), with a single
search match on the last line and a viewport of height 6. -/
def cexViewer : Viewer :=
  { file := List.replicate 9 10, current_line := 0, search_matches := [9],
    current_match := 0, in_search_mode := false, viewport_height := 6,
    selection := none, selecting := false, context_menu := none,
    progress_visible := false, progress_value := 0.0, progress_message := [],
    search_requested := false, search_cancelled := false,
    last_search_term := [], search_textarea := [] }

theorem sepOffsets_length (bytes : List Nat) :
    ∀ pos, (sepOffsets bytes pos).length = bytes.count 10 := by
  induction bytes with
  | nil => intro pos; simp [sepOffsets]
  | cons b rest ih =>
    intro pos
    by_cases hb : b = 10
    · simp [sepOffsets, hb, ih, List.count_cons]
    · simp [sepOffsets, hb, ih, List.count_cons]

theorem sepOffsets_mem_bounds (bytes : List Nat) :
    ∀ pos x, x ∈ sepOffsets bytes pos → pos < x ∧ x ≤ pos + bytes.length := by
  induction bytes with
  | nil => intro pos x hx; simp [sepOffsets] at hx
  | cons b rest ih =>
    intro pos x hx
    by_cases hb : b = 10
    · simp only [sepOffsets, if_pos hb, List.mem_cons] at hx
      rcases hx with rfl | hx
      · simp only [List.length_cons]; omega
      · have := ih (pos + 1) x hx
        simp only [List.length_cons]; omega
    · simp only [sepOffsets, if_neg hb] at hx
      have := ih (pos + 1) x hx
      simp only [List.length_cons]; omega

theorem sepOffsets_sorted (bytes : List Nat) :
    ∀ pos, (sepOffsets bytes pos).Sorted (· < ·) := by
  induction bytes with
  | nil => intro pos; simp [sepOffsets]
  | cons b rest ih =>
    intro pos
    by_cases hb : b = 10
    · simp only [sepOffsets, if_pos hb]
      refine List.sorted_cons.mpr ⟨?_, ih (pos + 1)⟩
      intro x hx
      exact (sepOffsets_mem_bounds rest (pos + 1) x hx).1
    · simpa only [sepOffsets, if_neg hb] using ih (pos + 1)

theorem lineStarts_sorted (bytes : List Nat) : (lineStarts bytes).Sorted (· < ·) := by
  refine List.sorted_cons.mpr ⟨?_, sepOffsets_sorted bytes 0⟩
  intro x hx
  exact (sepOffsets_mem_bounds bytes 0 x hx).1

theorem lineStarts_le_length (bytes : List Nat) :
    ∀ x ∈ lineStarts bytes, x ≤ bytes.length := by
  intro x hx
  rcases List.mem_cons.mp hx with rfl | hx
  · exact Nat.zero_le _
  · have := (sepOffsets_mem_bounds bytes 0 x hx).2
    omega

theorem lineStartOf_lt_next (bytes : List Nat) (n : Nat)
    (h : n + 1 < (lineStarts bytes).length) :
    lineStartOf bytes n < (lineStarts bytes).getD (n + 1) 0 := by
  have hs := lineStarts_sorted bytes
  have hn : n < (lineStarts bytes).length := by omega
  rw [lineStartOf, List.getD_eq_getElem _ _ hn, List.getD_eq_getElem _ _ h]
  exact List.pairwise_iff_getElem.mp hs n (n + 1) hn h (by omega)

theorem lineStartOf_le_length (bytes : List Nat) (n : Nat)
    (h : n < (lineStarts bytes).length) :
    lineStartOf bytes n ≤ bytes.length := by
  rw [lineStartOf, List.getD_eq_getElem _ _ h]
  exact lineStarts_le_length bytes _ (List.getElem_mem h)

theorem lineStart_le_lineEnd (bytes : List Nat) (n : Nat)
    (h : n < (lineStarts bytes).length) :
    lineStartOf bytes n ≤ lineEndOf bytes n := by
  rw [lineEndOf]
  split
  · next h2 =>
    have := lineStartOf_lt_next bytes n h2
    omega
  · exact lineStartOf_le_length bytes n h

/-- The branch structure of `get_line`: the `start > end` guard is dead code
(offsets are strictly increasing and bounded by the file length), so the
result is governed by `n < lineCount` and `start < length` alone. -/
theorem getLine_eq (bytes : List Nat) (n : Nat) :
    getLine bytes n =
      if n < lineCount bytes ∧ lineStartOf bytes n < bytes.length then
        decodeUtf8 (lineSlice bytes n)
      else none := by
  rw [getLine]
  by_cases h1 : n < lineCount bytes
  · have hn : n < (lineStarts bytes).length := by simpa [lineCount] using h1
    have hne : ¬ n ≥ (lineStarts bytes).length := by omega
    rw [if_neg hne]
    have hle := lineStart_le_lineEnd bytes n hn
    by_cases h2 : lineStartOf bytes n < bytes.length
    · rw [if_neg (by omega), if_pos ⟨h1, h2⟩]
    · rw [if_pos (by omega), if_neg (by tauto)]
  · have hn : n ≥ (lineStarts bytes).length := by simpa [lineCount] using h1
    rw [if_pos hn, if_neg (by tauto)]

theorem getLine_some_imp_lt (bytes : List Nat) (n : Nat) (s : List Nat)
    (h : getLine bytes n = some s) : n < lineCount bytes := by
  rw [getLine_eq] at h
  by_contra hc
  rw [if_neg (by tauto)] at h
  cases h

/-- C1 (amended): `getLine bytes n` returns `some s` iff `n` is a valid line
number, the recorded start offset of line `n` lies strictly inside the file,
and the bytes between the recorded offset of line `n` and the offset of line
`n + 1` (end of file for the last line), separator excluded, decode as `s`.
Equivalently it returns `none` iff `n ≥ lineCount`, or the start offset
reaches the file length (the trailing empty line of a separator-terminated
file, and line 0 of an empty file), or the byte range does not decode —
the middle case is the one the original claim omits. -/
theorem get_line_char (bytes : List Nat) (n : Nat) (s : List Nat) :
    getLine bytes n = some s ↔
      n < lineCount bytes ∧ lineStartOf bytes n < bytes.length ∧
        decodeUtf8 (lineSlice bytes n) = some s := by
  rw [getLine_eq]
  split
  · next h => simp [h.1, h.2]
  · next h =>
    constructor
    · intro hh; cases hh
    · intro hh; exact absurd ⟨hh.1, hh.2.1⟩ h

/-- C1 counterexample: for the one-byte file `"\n"`, line 1 is a valid line
number (`lineCount = 2`) and its byte range is empty, which decodes as the
empty text — yet `get_line` returns `none`, because the start offset of
line 1 equals the file length. -/
theorem get_line_trailing_cex :
    getLine [10] 1 = none ∧ 1 < lineCount [10] ∧
      decodeUtf8 (lineSlice [10] 1) = some [] := by decide

/-- C3 (amended): the line count equals the number of separator bytes plus
one, and an empty input yields `lineCount = 1`; but `getLine 0` on the
empty input returns `none`, not the empty string, because the start offset
`0` is not strictly below the file length `0`. -/
theorem line_count_spec :
    (∀ bytes : List Nat, lineCount bytes = bytes.count 10 + 1) ∧
      lineCount ([] : List Nat) = 1 ∧ getLine ([] : List Nat) 0 = none := by
  refine ⟨fun bytes => ?_, by decide, by decide⟩
  simp [lineCount, lineStarts, sepOffsets_length]

/-- C3 counterexample: on the empty input, `lineCount` is 1 as claimed, but
`getLine 0` is `none` rather than the empty string. -/
theorem empty_file_line_cex :
    lineCount ([] : List Nat) = 1 ∧ getLine ([] : List Nat) 0 = none ∧
      getLine ([] : List Nat) 0 ≠ some [] := by decide

theorem startsWithSeq_iff (needle : List Nat) :
    ∀ hay, startsWithSeq hay needle = true ↔ ∃ t, hay = needle ++ t := by
  induction needle with
  | nil => intro hay; simp [startsWithSeq]
  | cons b ns ih =>
    intro hay
    cases hay with
    | nil => simp [startsWithSeq]
    | cons a hs =>
      simp only [startsWithSeq, Bool.and_eq_true, beq_iff_eq, ih hs, List.cons_append,
        List.cons.injEq]
      tauto

theorem strContains_iff (needle : List Nat) :
    ∀ hay, strContains hay needle = true ↔ ∃ s t, hay = s ++ needle ++ t := by
  intro hay
  induction hay with
  | nil =>
    rw [strContains]
    simp only [Bool.or_false, startsWithSeq_iff]
    constructor
    · rintro ⟨t, ht⟩
      exact ⟨[], t, by simpa using ht⟩
    · rintro ⟨s, t, h⟩
      have hlen := congrArg List.length h
      simp at hlen
      refine ⟨[], ?_⟩
      have : needle = [] := List.length_eq_zero.mp (by omega)
      simp [this]
  | cons a hs ih =>
    rw [strContains]
    simp only [Bool.or_eq_true, startsWithSeq_iff, ih]
    constructor
    · rintro (⟨t, ht⟩ | ⟨s, t, h⟩)
      · exact ⟨[], t, by simpa using ht⟩
      · exact ⟨a :: s, t, by simp [h]⟩
    · rintro ⟨s, t, h⟩
      cases s with
      | nil => exact Or.inl ⟨t, by simpa using h⟩
      | cons x s2 =>
        right
        simp only [List.cons_append, List.cons.injEq] at h
        exact ⟨s2, t, h.2⟩

/-- C2: for every file and non-empty needle, the search produces the
strictly ascending (hence duplicate-free) list of exactly those line
numbers whose decodable text contains the needle as a literal contiguous
substring; over the lines `["foo", "bar", "foofoo"]` the needle `"foo"`
yields `[0, 2]`. -/
theorem search_matches_spec (bytes needle : List Nat) (h : needle ≠ []) :
    List.Sorted (· < ·) (searchMatches bytes needle) ∧
      (∀ n, n ∈ searchMatches bytes needle ↔
        ∃ l s t, getLine bytes n = some l ∧ l = s ++ needle ++ t) ∧
      searchMatches fooFile fooNeedle = [0, 2] := by
  refine ⟨?_, ?_, by decide⟩
  · exact List.Pairwise.sublist (List.filter_sublist _) (List.pairwise_lt_range _)
  · intro n
    rw [searchMatches, List.mem_filter, List.mem_range]
    constructor
    · rintro ⟨hn, hp⟩
      cases hg : getLine bytes n with
      | none => rw [hg] at hp; cases hp
      | some l =>
        rw [hg] at hp
        obtain ⟨s, t, hst⟩ := (strContains_iff needle l).mp hp
        exact ⟨l, s, t, rfl, hst⟩
    · rintro ⟨l, s, t, hg, hst⟩
      refine ⟨getLine_some_imp_lt bytes n l hg, ?_⟩
      rw [hg]
      exact (strContains_iff needle l).mpr ⟨s, t, hst⟩

/-- Witness for `search_matches_spec` at the `"foo"` example. -/
theorem search_matches_spec_witness :
    fooNeedle ≠ [] ∧ searchMatches fooFile fooNeedle = [0, 2] :=
  ⟨by decide, (search_matches_spec fooFile fooNeedle (by decide)).2.2⟩

/-- C4 (amended, viewer level): committing a search with an empty term only
clears the match list and changes nothing else — `perform_search` returns
before the scan is invoked. -/
theorem perform_search_empty_noop (v : Viewer) (h : v.search_textarea = []) :
    performSearch v = { v with search_matches := [] } := by
  rw [performSearch, if_pos h]

/-- Witness for `perform_search_empty_noop` at the initial viewer state. -/
theorem perform_search_empty_noop_witness :
    performSearch emptyViewer = { emptyViewer with search_matches := [] } :=
  perform_search_empty_noop emptyViewer rfl

/-- C4 counterexample (file-reader level): `search_with_progress` itself
performs no empty-needle check — on the one-line file `"a"` the empty
needle is contained in every line, so the scan returns `[0]`, not the empty
list. -/
theorem search_empty_needle_cex :
    searchMatches [97] [] = [0] ∧ searchMatches [97] [] ≠ [] := by decide

/-- C5: the search loop examines every recorded line — its iteration count
always equals `lineCount`, there is no cancellation checkpoint — while the
controller-side Esc branch merely flips its own flags, leaving the previous
match list, current-match index, typed search term, last search term and
viewport top line untouched and abandoning the still-running worker. -/
theorem search_scans_every_line (bytes needle : List Nat) (v : Viewer) :
    (searchWithCount bytes needle).2 = lineCount bytes ∧
      (cancelSearch v).search_matches = v.search_matches ∧
      (cancelSearch v).current_match = v.current_match ∧
      (cancelSearch v).search_textarea = v.search_textarea ∧
      (cancelSearch v).last_search_term = v.last_search_term ∧
      (cancelSearch v).current_line = v.current_line := by
  refine ⟨?_, rfl, rfl, rfl, rfl, rfl⟩
  rw [searchWithCount]
  have hstep : ∀ (acc : List Nat × Nat) (n : Nat),
      (match getLine bytes n with
        | some l2 => (if strContains l2 needle then acc.1 ++ [n] else acc.1, acc.2 + 1)
        | none => (acc.1, acc.2 + 1)).2 = acc.2 + 1 := by
    intro acc n
    cases getLine bytes n with
    | none => rfl
    | some l2 => by_cases hc : strContains l2 needle <;> simp [hc]
  have key : ∀ (l : List Nat) (acc : List Nat × Nat),
      (l.foldl (fun acc n =>
        match getLine bytes n with
        | some l2 => (if strContains l2 needle then acc.1 ++ [n] else acc.1, acc.2 + 1)
        | none => (acc.1, acc.2 + 1)) acc).2 = acc.2 + l.length := by
    intro l
    induction l with
    | nil => intro acc; simp
    | cons x xs ih =>
      intro acc
      rw [List.foldl_cons, ih]
      rw [hstep acc x]
      simp only [List.length_cons]
      omega
  rw [key]
  simp [lineCount]

theorem nextMatch_iterate (v : Viewer) (h : v.search_matches ≠ [])
    (hc : v.current_match < v.search_matches.length) :
    ∀ k, (nextMatch^[k] v).search_matches = v.search_matches ∧
      (nextMatch^[k] v).current_match = (v.current_match + k) % v.search_matches.length := by
  intro k
  induction k with
  | zero => simp [Nat.mod_eq_of_lt hc]
  | succ k ih =>
    obtain ⟨hm, hcm⟩ := ih
    rw [Function.iterate_succ_apply', nextMatch, if_neg (by rw [hm]; exact h)]
    refine ⟨by simp [hm], ?_⟩
    simp only [hm, hcm]
    rw [Nat.mod_add_mod]
    congr 1

/-- C8 (amended): with a non-empty match list and an in-range
`current_match` index `i` over `n` matches, `next_match` sets the index to
`(i + 1) % n` and `prev_match` to `(i + n - 1) % n` (the circular
predecessor), `n` applications of `next_match` return the index to its
original value, and both operations set the viewport top line to the target
match line minus half the viewport height, saturated at 0 below — but not
clamped to `max 0 (lineCount - viewportHeight)` above. -/
theorem match_navigation_spec (v : Viewer) (h : v.search_matches ≠ [])
    (hc : v.current_match < v.search_matches.length) :
    (nextMatch v).current_match = (v.current_match + 1) % v.search_matches.length ∧
      (prevMatch v).current_match =
        (v.current_match + v.search_matches.length - 1) % v.search_matches.length ∧
      (nextMatch^[v.search_matches.length] v).current_match = v.current_match ∧
      (nextMatch v).current_line =
        v.search_matches.getD ((v.current_match + 1) % v.search_matches.length) 0
          - v.viewport_height / 2 ∧
      (prevMatch v).current_line =
        v.search_matches.getD
          ((v.current_match + v.search_matches.length - 1) % v.search_matches.length) 0
          - v.viewport_height / 2 := by
  have hn : 0 < v.search_matches.length := List.length_pos.mpr h
  have hprev : (if v.current_match = 0 then v.search_matches.length - 1
      else v.current_match - 1) =
      (v.current_match + v.search_matches.length - 1) % v.search_matches.length := by
    by_cases h0 : v.current_match = 0
    · rw [if_pos h0, h0]
      rw [Nat.mod_eq_of_lt (by omega)]
      omega
    · rw [if_neg h0]
      have he : v.current_match + v.search_matches.length - 1
          = (v.current_match - 1) + v.search_matches.length := by omega
      rw [he, Nat.add_mod_right, Nat.mod_eq_of_lt (by omega)]
  refine ⟨?_, ?_, ?_, ?_, ?_⟩
  · rw [nextMatch, if_neg h]
  · rw [prevMatch, if_neg h]
    exact hprev
  · have := (nextMatch_iterate v h hc v.search_matches.length).2
    rw [this, Nat.add_mod_right, Nat.mod_eq_of_lt hc]
  · rw [nextMatch, if_neg h]
  · rw [prevMatch, if_neg h]
    show v.search_matches.getD
        (if v.current_match = 0 then v.search_matches.length - 1 else v.current_match - 1) 0
        - v.viewport_height / 2 = _
    rw [hprev]

/-- Witness for `match_navigation_spec` at the concrete ten-line state. -/
theorem match_navigation_spec_witness :
    (nextMatch cexViewer).current_match
        = (cexViewer.current_match + 1) % cexViewer.search_matches.length ∧
      (prevMatch cexViewer).current_match
        = (cexViewer.current_match + cexViewer.search_matches.length - 1)
            % cexViewer.search_matches.length ∧
      (nextMatch^[cexViewer.search_matches.length] cexViewer).current_match
        = cexViewer.current_match ∧
      (nextMatch cexViewer).current_line
        = cexViewer.search_matches.getD
            ((cexViewer.current_match + 1) % cexViewer.search_matches.length) 0
            - cexViewer.viewport_height / 2 ∧
      (prevMatch cexViewer).current_line
        = cexViewer.search_matches.getD
            ((cexViewer.current_match + cexViewer.search_matches.length - 1)
              % cexViewer.search_matches.length) 0
            - cexViewer.viewport_height / 2 :=
  match_navigation_spec cexViewer (by decide) (by decide)

/-- C8 counterexample: on a ten-line file with viewport height 6 and the
single match on line 9, `next_match` sets the viewport top line to
`9 - 6/2 = 6`, strictly above the claimed clamp
`max 0 (lineCount - viewportHeight) = 4`: the recentering saturates at 0
but is not clamped to the valid scroll range above. -/
theorem next_match_clamp_cex :
    (nextMatch cexViewer).current_line = 6 ∧
      lineCount cexViewer.file = 10 ∧ cexViewer.viewport_height = 6 ∧
      ¬((nextMatch cexViewer).current_line ≤
        max 0 (lineCount cexViewer.file - cexViewer.viewport_height)) := by decide

/-- C9: `normalize` returns the anchor/cursor pair sorted lexicographically
by (line, column): the returned start is lexicographically at most the
returned end, the result is one of the two input orders, and it does not
depend on the drag direction; dragging from (2,5) to (0,1) normalizes to
start (0,1), end (2,5). -/
theorem normalize_spec (s : Selection) :
    ((s.normalize.1 < s.normalize.2.2.1) ∨
      (s.normalize.1 = s.normalize.2.2.1 ∧ s.normalize.2.1 ≤ s.normalize.2.2.2)) ∧
      (s.normalize = (s.start_line, s.start_col, s.end_line, s.end_col) ∨
        s.normalize = (s.end_line, s.end_col, s.start_line, s.start_col)) ∧
      (flipSel s).normalize = s.normalize ∧
      ((Selection.new 2 5).update_end 0 1).normalize = (0, 1, 2, 5) := by
  obtain ⟨sl, sc, el, ec⟩ := s
  refine ⟨?_, ?_, ?_, by decide⟩
  · simp only [Selection.normalize]
    split_ifs with h1 <;> simp <;> omega
  · simp only [Selection.normalize]
    split_ifs with h1
    · exact Or.inl rfl
    · exact Or.inr rfl
  · simp only [Selection.normalize, flipSel]
    split_ifs with h1 h2 h2 <;> simp_all [Prod.ext_iff] <;> omega

/-- C10: with an empty match list both `next_match` and `prev_match` return
immediately, leaving every field of the viewer state unchanged. -/
theorem empty_matches_nav_noop (v : Viewer) (h : v.search_matches = []) :
    nextMatch v = v ∧ prevMatch v = v := by
  rw [nextMatch, prevMatch, if_pos h, if_pos h]
  exact ⟨rfl, rfl⟩

/-- Witness for `empty_matches_nav_noop` at the initial viewer state. -/
theorem empty_matches_nav_noop_witness :
    nextMatch emptyViewer = emptyViewer ∧ prevMatch emptyViewer = emptyViewer :=
  empty_matches_nav_noop emptyViewer rfl

theorem segsLink_le :
    ∀ (segs : List (Nat × Nat × Option Nat)) (a b : Nat), segsLink a segs b → a ≤ b := by
  intro segs
  induction segs with
  | nil => intro a b h; exact le_of_eq h
  | cons seg rest ih =>
    intro a b h
    obtain ⟨h1, h2, h3⟩ := h
    have := ih _ _ h3
    omega

theorem segsLink_snoc :
    ∀ (segs : List (Nat × Nat × Option Nat)) (a b c : Nat) (st : Option Nat),
      segsLink a segs b → b < c → segsLink a (segs ++ [(b, c, st)]) c := by
  intro segs
  induction segs with
  | nil =>
    intro a b c st h hbc
    have : a = b := h
    subst this
    exact ⟨rfl, hbc, rfl⟩
  | cons seg rest ih =>
    intro a b c st h hbc
    obtain ⟨h1, h2, h3⟩ := h
    exact ⟨h1, h2, ih _ _ _ _ h3 hbc⟩

theorem sweep_invariant (L : Nat) :
    ∀ (evts : List HEvent) (active : List Nat) (lastPos : Nat)
      (segs : List (Nat × Nat × Option Nat)),
      evts.Pairwise eventLe →
      (∀ ev ∈ evts, lastPos ≤ ev.1 ∧ ev.1 ≤ L) →
      segsLink 0 segs lastPos → lastPos ≤ L →
      segsLink 0 (evts.foldl sweepStep (active, lastPos, segs)).2.2
          (evts.foldl sweepStep (active, lastPos, segs)).2.1 ∧
        (evts.foldl sweepStep (active, lastPos, segs)).2.1 ≤ L ∧
        lastPos ≤ (evts.foldl sweepStep (active, lastPos, segs)).2.1 := by
  intro evts
  induction evts with
  | nil =>
    intro active lastPos segs _ _ hlink hle
    exact ⟨hlink, hle, le_refl _⟩
  | cons ev rest ih =>
    intro active lastPos segs hpw hbnd hlink hle
    rw [List.foldl_cons]
    have hev := hbnd ev (List.mem_cons_self _ _)
    have hpw2 := List.pairwise_cons.mp hpw
    have hstep : sweepStep (active, lastPos, segs) ev =
        ((if ev.2.1 then active ++ [ev.2.2] else active.filter fun s => s ≠ ev.2.2),
         ev.1,
         (if lastPos < ev.1 then segs ++ [(lastPos, ev.1, active.getLast?)] else segs)) := rfl
    rw [hstep]
    have hlink2 : segsLink 0
        (if lastPos < ev.1 then segs ++ [(lastPos, ev.1, active.getLast?)] else segs) ev.1 := by
      by_cases hlt : lastPos < ev.1
      · rw [if_pos hlt]
        exact segsLink_snoc segs 0 lastPos ev.1 _ hlink hlt
      · rw [if_neg hlt]
        have heq : lastPos = ev.1 := by omega
        rw [← heq]
        exact hlink
    have hres := ih
      (if ev.2.1 then active ++ [ev.2.2] else active.filter fun s => s ≠ ev.2.2) ev.1
      (if lastPos < ev.1 then segs ++ [(lastPos, ev.1, active.getLast?)] else segs) hpw2.2
      (fun e he => ⟨by rcases hpw2.1 e he with hx | ⟨hx, _⟩ <;> omega,
        (hbnd e (List.mem_cons_of_mem _ he)).2⟩)
      hlink2 hev.2
    exact ⟨hres.1, hres.2.1, le_trans hev.1 hres.2.2⟩

theorem styleMap_bounds (L : Nat) (ranges : List HRange) :
    ∀ r ∈ styleMap L ranges, r.1 < r.2.1 ∧ r.2.1 ≤ L := by
  intro r hr
  rw [styleMap, List.mem_filterMap] at hr
  obtain ⟨a, _, ha⟩ := hr
  by_cases hlt : min a.1 L < min a.2.1 L
  · rw [if_pos hlt] at ha
    have := Option.some.inj ha
    subst this
    exact ⟨hlt, Nat.min_le_right _ _⟩
  · rw [if_neg hlt] at ha
    cases ha

theorem sweepEvents_bounds (L : Nat) (ranges : List HRange) :
    ∀ ev ∈ sweepEvents L ranges, ev.1 ≤ L := by
  intro ev hev
  rw [sweepEvents] at hev
  have hperm := List.perm_insertionSort eventLe
    ((styleMap L ranges).flatMap fun r => [(r.1, true, r.2.2), (r.2.1, false, r.2.2)])
  rw [hperm.mem_iff, List.mem_flatMap] at hev
  obtain ⟨r, hr, hin⟩ := hev
  have hb := styleMap_bounds L ranges r hr
  rcases List.mem_cons.mp hin with rfl | hin2
  · exact le_trans (le_of_lt hb.1) hb.2
  · rcases List.mem_cons.mp hin2 with rfl | hin3
    · exact hb.2
    · cases hin3

theorem sweepSegments_link (L : Nat) (ranges : List HRange) :
    segsLink 0 (sweepSegments L ranges) L := by
  have hpw : (sweepEvents L ranges).Pairwise eventLe :=
    List.sorted_insertionSort eventLe
      ((styleMap L ranges).flatMap fun r => [(r.1, true, r.2.2), (r.2.1, false, r.2.2)])
  have hinv := sweep_invariant L (sweepEvents L ranges) [] 0 []
    hpw (fun ev hev => ⟨Nat.zero_le _, sweepEvents_bounds L ranges ev hev⟩) rfl (Nat.zero_le L)
  rw [sweepSegments]
  by_cases hlt : ((sweepEvents L ranges).foldl sweepStep ([], 0, [])).2.1 < L
  · rw [if_pos hlt]
    exact segsLink_snoc ((sweepEvents L ranges).foldl sweepStep ([], 0, [])).2.2 0
      ((sweepEvents L ranges).foldl sweepStep ([], 0, [])).2.1 L none hinv.1 hlt
  · rw [if_neg hlt, List.append_nil]
    have heq : ((sweepEvents L ranges).foldl sweepStep ([], 0, [])).2.1 = L := by
      have := hinv.2.1
      omega
    rw [heq] at hinv
    exact hinv.1

theorem segs_spans_concat (line : List Nat) :
    ∀ (segs : List (Nat × Nat × Option Nat)) (a : Nat),
      segsLink a segs line.length →
      ((segs.filterMap (segToSpan line)).map fun sp => sp.1).flatten =
        (line.drop a).take (line.length - a) := by
  intro segs
  induction segs with
  | nil =>
    intro a h
    have ha : a = line.length := h
    subst ha
    simp [List.drop_length]
  | cons seg rest ih =>
    intro a h
    obtain ⟨h1, h2, h3⟩ := h
    have hb : seg.2.1 ≤ line.length := segsLink_le rest seg.2.1 line.length h3
    have hpos : seg.1 < seg.2.1 := by omega
    have hf : segToSpan line seg
        = some ((line.drop seg.1).take (seg.2.1 - seg.1), seg.2.2) := by
      rw [segToSpan, if_pos hpos]
    rw [List.filterMap_cons_some hf, List.map_cons, List.flatten_cons,
      ih seg.2.1 h3]
    subst h1
    have hdrop : line.drop seg.2.1 = (line.drop seg.1).drop (seg.2.1 - seg.1) := by
      rw [List.drop_drop]
      congr 1
      omega
    rw [hdrop, ← List.take_add]
    congr 1
    omega

/-- C7: for every line and every list of highlight ranges, the spans
produced by the compositor concatenate back exactly to the original line
text — the emitted segments are contiguous, non-overlapping, and cover the
line exactly once. -/
theorem split_line_concat_eq (line : List Nat) (ranges : List HRange) :
    ((splitLineIntoSpans line ranges).map fun sp => sp.1).flatten = line := by
  rw [splitLineIntoSpans]
  by_cases hr : ranges = []
  · rw [if_pos hr]
    simp
  · rw [if_neg hr]
    have := segs_spans_concat line (sweepSegments line.length ranges) 0
      (sweepSegments_link line.length ranges)
    simpa using this

/-- C6 counterexample: on a 12-character line, supply range [5,10) styled 1
first and range [2,8) styled 2 second.  The claim predicts the
later-supplied style 2 to win on the overlap [5,8); the compositor instead
paints [5,8) (character 6 included) with style 1: the ranges are sorted by
start position before the sweep, so the stack — and with it visual
precedence — does not follow the supply order. -/
theorem later_layer_override_cex :
    charStyles (splitLineIntoSpans line12 [(5, 10, 1), (2, 8, 2)]) =
      [none, none, some 2, some 2, some 2, some 1, some 1, some 1, some 1, some 1,
        none, none] ∧
      (charStyles (splitLineIntoSpans line12 [(5, 10, 1), (2, 8, 2)])).getD 6 none
        ≠ some 2 := by decide

/-- C6 (amended): a range supplied later in the input list does not in
general visually override earlier-supplied ranges where they overlap — the
compositor sorts the ranges by start position before sweeping and styles
each stretch with the top of its active stack, so precedence does not
follow supply order: with search [5,10) (style 1) supplied before selection
[2,8) (style 2), the overlap [5,8) keeps style 1.  The documented example
itself does hold: selection [2,8) (style 1) supplied before search [5,10)
(style 2) on a 12-character line paints [0,2) plain, [2,5) selection,
[5,10) search-match, [10,12) plain. -/
theorem layered_example_spans :
    charStyles (splitLineIntoSpans line12 [(2, 8, 1), (5, 10, 2)]) =
      [none, none, some 1, some 1, some 1, some 2, some 2, some 2, some 2, some 2,
        none, none] ∧
      charStyles (splitLineIntoSpans line12 [(5, 10, 1), (2, 8, 2)]) =
        [none, none, some 2, some 2, some 2, some 1, some 1, some 1, some 1, some 1,
          none, none] := by decide

end Bigview
